import Mathlib

set_option maxRecDepth 8192

namespace ReactHotkeys

/-!
Shallow embedding of `src/lib/shared/KeySequenceParser.js`.

JS strings are modelled as `List Char`.  The external collaborators
`standardizeKeyName` (which, being arbitrary outside code, may throw) and
`isValidKey` are parameters of the embedded functions; the two helpers that
are not part of the given sources (`stripSuperfluousWhitespace` and
`normalizedCombinationId`) are modelled from the spec and marked as such.
-/

/-- Shorthand turning a Lean string literal into the `List Char` model of a
JS string. -/
def str (s : String) : List Char :=
  s.toList

/-- Whitespace characters, modelling the regex class `\s` on the ASCII range. -/
def isJsWhitespace (c : Char) : Bool :=
  c == ' ' || c == '\t' || c == '\n' || c == '\r' || c == '\x0b' || c == '\x0c'

/-- JS `String.prototype.split` with a one-character separator: `split` never
returns an empty array, and empty pieces are kept. -/
def splitOnChar (sep : Char) : List Char → List (List Char)
  | [] => [[]]
  | c :: rest =>
    if c == sep then
      [] :: splitOnChar sep rest
    else
      match splitOnChar sep rest with
      | [] => [[c]]
      | t :: ts => (c :: t) :: ts

/-- JS `Array.prototype.join` with a one-character separator. -/
def joinWithChar (sep : Char) : List (List Char) → List Char
  | [] => []
  | t :: ts =>
    match ts with
    | [] => t
    | _ :: _ => t ++ sep :: joinWithChar sep ts

/-- Substring containment: `containsSub s pat = true` iff `pat` occurs
contiguously inside `s`, i.e. JS `s.indexOf(pat) !== -1`. -/
def containsSub (s pat : List Char) : Bool :=
  match s with
  | [] => pat.isPrefixOf ([] : List Char)
  | c :: rest => pat.isPrefixOf (c :: rest) || containsSub rest pat

/-- The text JS produces when coercing the regex literal `/[sS]hift/` to a
string, which is what `String.prototype.indexOf` searches for on line 140 of
`KeySequenceParser.js`. -/
def shiftCoercedPattern : List Char :=
  str "/[sS]hift/"

/-- The text JS produces when coercing the regex literal `/[aA]lt/` to a
string, which is what `String.prototype.indexOf` searches for on line 141 of
`KeySequenceParser.js`. -/
def altCoercedPattern : List Char :=
  str "/[aA]lt/"

/-- Line 140 of `KeySequenceParser.js`: `string.indexOf(/[sS]hift/) !== -1`.
`indexOf` coerces its regex argument to a string, so the test is containment
of the literal text of the regex. -/
def shiftPressed (s : List Char) : Bool :=
  containsSub s shiftCoercedPattern

/-- Line 141 of `KeySequenceParser.js`: `string.indexOf(/[aA]lt/) !== -1`,
with the same string coercion of the regex. -/
def altPressed (s : List Char) : Bool :=
  containsSub s altCoercedPattern

/-- The modifier context (shift flag, alt flag) that `parseCombination`
hands to `standardizeKeyName`. -/
def combinationModifiers (s : List Char) : Bool × Bool :=
  (shiftPressed s, altPressed s)

/-- One attempted match of the regex `^\+|(\s|[^+]\+)\+` at the current
position of the scan.  `first` records whether the position is the start of
the string (where alone `^` can match).  On success, returns the capture of
group 1 (empty when the group did not participate) and the input remaining
after the matched text. -/
def escMatch (first : Bool) (cs : List Char) : Option (List Char × List Char) :=
  match cs with
  | [] => none
  | c :: rest =>
    if first && c == '+' then
      some ([], rest)
    else
      match rest with
      | [] => none
      | c2 :: rest2 =>
        if c2 == '+' then
          if isJsWhitespace c then
            some ([c], rest2)
          else
            match rest2 with
            | [] => none
            | c3 :: rest3 =>
              if c3 == '+' then
                if c == '+' then none else some ([c, '+'], rest3)
              else none
        else none

/-- JS `String.prototype.replace` with the non-global regex
`^\+|(\s|[^+]\+)\+` and replacement `'$1plus'`: scan left to right, rewrite
the first match only, leave the rest of the string untouched. -/
def escScan (first : Bool) : List Char → List Char
  | [] => []
  | c :: rest =>
    match escMatch first (c :: rest) with
    | some (g1, after) => g1 ++ str "plus" ++ after
    | none => c :: escScan false rest

/-- Line 143 of `KeySequenceParser.js`: the combination tokenizer,
`string.replace(re, '$1plus').split('+')`. -/
def tokenizeCombination (s : List Char) : List (List Char) :=
  splitOnChar '+' (escScan true s)

/-- Whether the scan of `escScan` finds a match anywhere (specification
companion used to reason about strings the rewrite leaves unchanged). -/
def hasEscMatch (first : Bool) : List Char → Bool
  | [] => false
  | c :: rest => (escMatch first (c :: rest)).isSome || hasEscMatch false rest

/-- JS property write `keyDictionary[finalKeyName] = true` on an object
modelled as an association list kept in insertion order: an existing key has
its value overwritten in place, a new key is appended. -/
def dictInsert (d : List (List Char × Bool)) (k : List Char) :
    List (List Char × Bool) :=
  if d.any (fun e => e.1 == k) then
    d.map (fun e => if e.1 == k then (e.1, true) else e)
  else
    d ++ [(k, true)]

/-- Lexicographic comparison of code-unit lists, the order JS
`Array.prototype.sort()` uses on strings. -/
def lexLe : List Char → List Char → Bool
  | [], _ => true
  | _ :: _, [] => false
  | a :: as, b :: bs => if a < b then true else if b < a then false else lexLe as bs

/-- Sorting of a key list by `lexLe`. -/
def sortKeys (keys : List (List Char)) : List (List Char) :=
  List.insertionSort (fun a b => lexLe a b = true) keys

/-- Modelled from the spec: `normalizedCombinationId`
(`src/helpers/parsing-key-maps/normalizedCombinationId`, not included under
`src/`) is the external order-independent normalizer: it takes the key
dictionary and produces the canonical combination id, the key names sorted
alphabetically and joined with plus signs. -/
def normalizedCombinationId (keyDictionary : List (List Char × Bool)) :
    List Char :=
  joinWithChar '+' (sortKeys (keyDictionary.map Prod.fst))

/-- Splitting a string at every whitespace character. -/
def splitOnWs : List Char → List (List Char)
  | [] => [[]]
  | c :: rest =>
    if isJsWhitespace c then
      [] :: splitOnWs rest
    else
      match splitOnWs rest with
      | [] => [[c]]
      | t :: ts => (c :: t) :: ts

/-- Modelled from the spec: `stripSuperfluousWhitespace`
(`src/utils/string/stripSuperfluousWhitespace`, not included under `src/`)
collapses runs of whitespace into single spaces and trims both ends. -/
def stripSuperfluousWhitespace (s : List Char) : List Char :=
  joinWithChar ' ' ((splitOnWs s).filter (fun w => !w.isEmpty))

/-- Errors that can escape the per-combination parsing: the core's own
`InvalidKeyNameError`, or anything thrown by the external
`standardizeKeyName` collaborator (type `ε` keeps that error arbitrary). -/
inductive PError (ε : Type) where
  | invalidKeyName : PError ε
  | thrown : ε → PError ε
deriving DecidableEq

/-- The reducer callback of lines 144-158 of `KeySequenceParser.js`:
standardize the raw token with the external `std` (= `standardizeKeyName`,
allowed to throw an arbitrary error of type `ε`), optionally check it with
the external `valid` (= `isValidKey`), throwing `InvalidKeyNameError` when
the check fails, and otherwise insert it into the dictionary. -/
def pcStep (std : List Char → Bool → Bool → Except ε (List Char))
    (valid : List Char → Bool) (ensureValidKeys : Bool)
    (shift alt : Bool) (keyDictionary : List (List Char × Bool))
    (keyName : List Char) : Except (PError ε) (List (List Char × Bool)) :=
  match std keyName shift alt with
  | .error e => .error (PError.thrown e)
  | .ok finalKeyName =>
    if ensureValidKeys && !(valid finalKeyName) then
      .error PError.invalidKeyName
    else
      .ok (dictInsert keyDictionary finalKeyName)

/-- `parseCombination` as a whole: fold the reducer over the tokens, starting
from the empty dictionary, with the modifier context computed once from the
combination substring. -/
def parseCombination (std : List Char → Bool → Bool → Except ε (List Char))
    (valid : List Char → Bool) (ensureValidKeys : Bool) (s : List Char) :
    Except (PError ε) (List (List Char × Bool)) :=
  (tokenizeCombination s).foldlM
    (pcStep std valid ensureValidKeys (shiftPressed s) (altPressed s)) []

/-- `BasicKeyCombination` record of `KeySequenceParser.js`; the event-type
tag has an opaque caller-chosen type `κ`. -/
structure BasicKeyCombination (κ : Type) where
  id : List Char
  keyDictionary : List (List Char × Bool)
  keyEventType : κ
  size : Nat
deriving DecidableEq

/-- `BasicKeySequence` record of `KeySequenceParser.js`.  The JS field
`prefix` is named `pfx` here because `prefix` is a Lean keyword. -/
structure BasicKeySequence where
  pfx : List Char
  size : Nat
deriving DecidableEq

/-- The `options` argument of `KeySequenceParser.parse`. -/
structure ParseOptions (κ : Type) where
  keyEventType : κ
  ensureValidKeys : Bool
deriving DecidableEq

/-- The `KeySequenceOptions` result record of `KeySequenceParser.parse`:
in JS each of the two fields is either an object or `null`. -/
structure KeySequenceOptions (κ : Type) where
  sequence : Option BasicKeySequence
  combination : Option (BasicKeyCombination κ)
deriving DecidableEq

/-- The combination substrings of a sequence string: lines 86-88 of
`KeySequenceParser.js` (whitespace normalization, then `split(' ')`). -/
def sequenceCombinations (sequenceString : List Char) : List (List Char) :=
  splitOnChar ' ' (stripSuperfluousWhitespace sequenceString)

/-- The body of the `try` block of `KeySequenceParser.parse`
(lines 90-108): errors escape as `Except.error`. -/
def parseBody (std : List Char → Bool → Bool → Except ε (List Char))
    (valid : List Char → Bool) (opts : ParseOptions κ)
    (sequenceString : List Char) :
    Except (PError ε) (BasicKeySequence × BasicKeyCombination κ) := do
  let prefixIds ← ((sequenceCombinations sequenceString).dropLast).mapM
    (fun keyCombination => do
      let keysInComboDict ← parseCombination std valid opts.ensureValidKeys
        keyCombination
      pure (normalizedCombinationId keysInComboDict))
  let keysInComboDict ← parseCombination std valid opts.ensureValidKeys
    ((sequenceCombinations sequenceString).getLastD [])
  pure
    (⟨joinWithChar ' ' prefixIds,
      (sequenceCombinations sequenceString).dropLast.length + 1⟩,
     ⟨normalizedCombinationId keysInComboDict, keysInComboDict,
      opts.keyEventType, (keysInComboDict.map Prod.fst).length⟩)

/-- `KeySequenceParser.parse` (lines 85-112): the catch converts any escaped
error into the pair of `null` fields. -/
def KeySequenceParser.parse
    (std : List Char → Bool → Bool → Except ε (List Char))
    (valid : List Char → Bool) (opts : ParseOptions κ)
    (sequenceString : List Char) : KeySequenceOptions κ :=
  match parseBody std valid opts sequenceString with
  | .ok (sequence, combination) => ⟨some sequence, some combination⟩
  | .error _ => ⟨none, none⟩

/-- Concrete standardizer used to instantiate the parameterised theorems on
closed inputs: the identity on tokens, never throwing. -/
def stdOk : List Char → Bool → Bool → Except Unit (List Char) :=
  fun keyName _ _ => .ok keyName

/-- Concrete standardizer that always throws, used to exercise the failure
path of `parse` on closed inputs. -/
def stdThrow : List Char → Bool → Bool → Except Nat (List Char) :=
  fun _ _ _ => .error 7

/-- Concrete validity predicate accepting every name. -/
def validAll : List Char → Bool :=
  fun _ => true

/-- Concrete validity predicate rejecting exactly the name `foobar`. -/
def validNoFoobar : List Char → Bool :=
  fun n => !(n == str "foobar")

/-! ### Basic lemmas about the string helpers -/

theorem except_bind_ok {ε α β : Type} (a : α) (f : α → Except ε β) :
    (Except.ok a >>= f) = f a :=
  rfl

theorem except_bind_error {ε α β : Type} (e : ε) (f : α → Except ε β) :
    ((Except.error e : Except ε α) >>= f) = Except.error e :=
  rfl

theorem splitOnChar_ne_nil (sep : Char) (cs : List Char) :
    splitOnChar sep cs ≠ [] := by
  induction cs with
  | nil => simp [splitOnChar]
  | cons c rest ih =>
    simp only [splitOnChar]
    split
    · simp
    · split
      · simp
      · simp

theorem dropLast_append_getLastD {α : Type} (l : List α) (h : l ≠ []) (d : α) :
    l.dropLast ++ [l.getLastD d] = l := by
  rcases List.eq_nil_or_concat l with rfl | ⟨init, x, rfl⟩
  · exact absurd rfl h
  · simp

theorem sequenceCombinations_ne_nil (s : List Char) :
    sequenceCombinations s ≠ [] :=
  splitOnChar_ne_nil ' ' (stripSuperfluousWhitespace s)

/-! ### Relating `parse` to `parseBody` -/

theorem parse_of_body_error {ε κ : Type}
    {std : List Char → Bool → Bool → Except ε (List Char)}
    {valid : List Char → Bool} {opts : ParseOptions κ} {s : List Char}
    (e : PError ε) (h : parseBody std valid opts s = .error e) :
    KeySequenceParser.parse std valid opts s = ⟨none, none⟩ := by
  unfold KeySequenceParser.parse
  rw [h]

theorem parse_of_body_ok {ε κ : Type}
    {std : List Char → Bool → Bool → Except ε (List Char)}
    {valid : List Char → Bool} {opts : ParseOptions κ} {s : List Char}
    {sq : BasicKeySequence} {cb : BasicKeyCombination κ}
    (h : parseBody std valid opts s = .ok (sq, cb)) :
    KeySequenceParser.parse std valid opts s = ⟨some sq, some cb⟩ := by
  unfold KeySequenceParser.parse
  rw [h]

theorem body_ok_of_parse {ε κ : Type}
    {std : List Char → Bool → Bool → Except ε (List Char)}
    {valid : List Char → Bool} {opts : ParseOptions κ} {s : List Char}
    {sq : BasicKeySequence} {cb : BasicKeyCombination κ}
    (h : KeySequenceParser.parse std valid opts s = ⟨some sq, some cb⟩) :
    parseBody std valid opts s = .ok (sq, cb) := by
  unfold KeySequenceParser.parse at h
  rcases hb : parseBody std valid opts s with e | ⟨sq', cb'⟩
  · rw [hb] at h
    simp at h
  · rw [hb] at h
    simp only [KeySequenceOptions.mk.injEq, Option.some.injEq] at h
    rw [h.1, h.2]

/-! ### Lemmas about the key dictionary -/

theorem dictInsert_mem_self (d : List (List Char × Bool)) (k : List Char) :
    (k, true) ∈ dictInsert d k := by
  unfold dictInsert
  split
  · next h =>
    rw [List.any_eq_true] at h
    obtain ⟨e, he, hek⟩ := h
    rw [beq_iff_eq] at hek
    exact List.mem_map.mpr ⟨e, he, by simp [hek]⟩
  · exact List.mem_append_right _ (by simp)

theorem dictInsert_mem_mono {d : List (List Char × Bool)} {n : List Char}
    (k : List Char) (h : (n, true) ∈ d) : (n, true) ∈ dictInsert d k := by
  unfold dictInsert
  split
  · refine List.mem_map.mpr ⟨(n, true), h, ?_⟩
    by_cases hc : n = k <;> simp [hc]
  · exact List.mem_append_left _ h

theorem dictInsert_keys (d : List (List Char × Bool)) (k : List Char) :
    (dictInsert d k).map Prod.fst =
      if d.any (fun e => e.1 == k) then d.map Prod.fst
      else d.map Prod.fst ++ [k] := by
  unfold dictInsert
  split
  · simp only [if_pos, List.map_map]
    refine List.map_congr_left ?_
    intro e _
    by_cases hc : e.1 = k <;> simp [hc]
  · simp

theorem dictInsert_keys_nodup {d : List (List Char × Bool)} (k : List Char)
    (h : (d.map Prod.fst).Nodup) : ((dictInsert d k).map Prod.fst).Nodup := by
  rw [dictInsert_keys]
  split
  · exact h
  · next hany =>
    have hk : k ∉ d.map Prod.fst := by
      intro hmem
      obtain ⟨e, he, hek⟩ := List.mem_map.mp hmem
      exact hany (List.any_eq_true.mpr ⟨e, he, beq_iff_eq.mpr hek⟩)
    simp [List.nodup_append, h, hk]

theorem dictInsert_snd_true {d : List (List Char × Bool)} (k : List Char)
    (h : ∀ e ∈ d, e.2 = true) : ∀ e ∈ dictInsert d k, e.2 = true := by
  intro e he
  unfold dictInsert at he
  split at he
  · obtain ⟨e', he', rfl⟩ := List.mem_map.mp he
    split
    · rfl
    · exact h e' he'
  · rcases List.mem_append.mp he with h1 | h2
    · exact h e h1
    · simp only [List.mem_singleton] at h2
      rw [h2]

theorem dictInsert_idem (d : List (List Char × Bool)) (k : List Char) :
    dictInsert (dictInsert d k) k = dictInsert d k := by
  have hmem : ((dictInsert d k).any (fun e => e.1 == k)) = true :=
    List.any_eq_true.mpr ⟨(k, true), dictInsert_mem_self d k, by simp⟩
  conv_lhs => rw [dictInsert]
  rw [if_pos hmem]
  unfold dictInsert
  split
  · rw [List.map_map]
    refine List.map_congr_left ?_
    intro e _
    by_cases hc : e.1 = k <;> simp [hc]
  · next hany =>
    rw [List.map_append]
    have hd : d.map (fun e => if e.1 == k then (e.1, true) else e) = d := by
      conv_rhs => rw [← List.map_id d]
      refine List.map_congr_left ?_
      intro e he
      have : (e.1 == k) = false := by
        by_contra hcon
        exact hany (List.any_eq_true.mpr
          ⟨e, he, by revert hcon; cases e.1 == k <;> simp⟩)
      simp [this]
    rw [hd]
    simp

/-! ### Lemmas about the per-combination fold -/

theorem pcStep_error_of_invalid {ε : Type}
    {std : List Char → Bool → Bool → Except ε (List Char)}
    {valid : List Char → Bool} {sh al : Bool} {t n : List Char}
    (hs : std t sh al = .ok n) (hv : valid n = false)
    (d : List (List Char × Bool)) :
    pcStep std valid true sh al d t = .error PError.invalidKeyName := by
  unfold pcStep
  rw [hs]
  simp [hv]

theorem pcStep_ok_elim {ε : Type}
    {std : List Char → Bool → Bool → Except ε (List Char)}
    {valid : List Char → Bool} {ens sh al : Bool} {t : List Char}
    {d d' : List (List Char × Bool)}
    (h : pcStep std valid ens sh al d t = .ok d') :
    ∃ n, std t sh al = .ok n ∧ d' = dictInsert d n := by
  unfold pcStep at h
  split at h
  · injection h
  · next n hs =>
    split at h
    · injection h
    · injection h with h
      exact ⟨n, hs, h.symm⟩

theorem pcStep_ok_of_std_ok {ε : Type}
    {std : List Char → Bool → Bool → Except ε (List Char)}
    {valid : List Char → Bool} {sh al : Bool} {t n : List Char}
    (hs : std t sh al = .ok n) (d : List (List Char × Bool)) :
    pcStep std valid false sh al d t = .ok (dictInsert d n) := by
  unfold pcStep
  rw [hs]
  simp

theorem foldlM_pcStep_error {ε : Type}
    {std : List Char → Bool → Bool → Except ε (List Char)}
    {valid : List Char → Bool} {sh al : Bool} (l : List (List Char))
    (t : List Char) (ht : t ∈ l) (n : List Char) (hs : std t sh al = .ok n)
    (hv : valid n = false) :
    ∀ d, ∃ e, l.foldlM (pcStep std valid true sh al) d = .error e := by
  induction l with
  | nil => cases ht
  | cons a l ih =>
    intro d
    rw [List.foldlM_cons]
    rcases List.mem_cons.mp ht with rfl | hmem
    · rw [pcStep_error_of_invalid hs hv d]
      exact ⟨PError.invalidKeyName, rfl⟩
    · rcases hstep : pcStep std valid true sh al d a with e | d'
      · exact ⟨e, rfl⟩
      · exact ih hmem d'

theorem foldlM_pcStep_ok {ε : Type}
    {std : List Char → Bool → Bool → Except ε (List Char)}
    {valid : List Char → Bool} {sh al : Bool} (l : List (List Char)) :
    ∀ d0, (∀ t ∈ l, ∃ n, std t sh al = .ok n) →
      ∃ d, l.foldlM (pcStep std valid false sh al) d0 = .ok d ∧
        (∀ k, (k, true) ∈ d0 → (k, true) ∈ d) ∧
        (∀ t ∈ l, ∀ n, std t sh al = .ok n → (n, true) ∈ d) := by
  induction l with
  | nil =>
    intro d0 _
    exact ⟨d0, rfl, fun k h => h, by simp⟩
  | cons a l ih =>
    intro d0 hstd
    obtain ⟨n, hn⟩ := hstd a (List.mem_cons_self a l)
    obtain ⟨d, hfold, hmono, hall⟩ :=
      ih (dictInsert d0 n) (fun t htl => hstd t (List.mem_cons_of_mem a htl))
    refine ⟨d, ?_, ?_, ?_⟩
    · rw [List.foldlM_cons, pcStep_ok_of_std_ok hn d0]
      exact hfold
    · intro k hk
      exact hmono k (dictInsert_mem_mono n hk)
    · intro t htl n' hn'
      rcases List.mem_cons.mp htl with rfl | hmem
      · rw [hn] at hn'
        injection hn' with hnn
        rw [← hnn]
        exact hmono n (dictInsert_mem_self d0 n)
      · exact hall t hmem n' hn'

theorem foldlM_pcStep_props {ε : Type}
    {std : List Char → Bool → Bool → Except ε (List Char)}
    {valid : List Char → Bool} {ens sh al : Bool} (l : List (List Char)) :
    ∀ d0 d, l.foldlM (pcStep std valid ens sh al) d0 = .ok d →
      ((d0.map Prod.fst).Nodup → (d.map Prod.fst).Nodup) ∧
      ((∀ e ∈ d0, e.2 = true) → ∀ e ∈ d, e.2 = true) := by
  induction l with
  | nil =>
    intro d0 d h
    rw [List.foldlM_nil] at h
    injection h with h
    rw [← h]
    exact ⟨fun x => x, fun x => x⟩
  | cons a l ih =>
    intro d0 d h
    rw [List.foldlM_cons] at h
    rcases hstep : pcStep std valid ens sh al d0 a with e | d1
    · rw [hstep, except_bind_error] at h
      injection h
    · rw [hstep, except_bind_ok] at h
      obtain ⟨n, hn, rfl⟩ := pcStep_ok_elim hstep
      obtain ⟨hnd, htr⟩ := ih _ d h
      exact ⟨fun h0 => hnd (dictInsert_keys_nodup n h0),
             fun h0 => htr (dictInsert_snd_true n h0)⟩

/-! ### Lemmas about `parseCombination` -/

theorem parseCombination_error_of_invalid {ε : Type}
    {std : List Char → Bool → Bool → Except ε (List Char)}
    {valid : List Char → Bool} {s t n : List Char}
    (ht : t ∈ tokenizeCombination s)
    (hs : std t (shiftPressed s) (altPressed s) = .ok n)
    (hv : valid n = false) :
    ∃ e, parseCombination std valid true s = .error e := by
  unfold parseCombination
  exact foldlM_pcStep_error (tokenizeCombination s) t ht n hs hv []

theorem parseCombination_ok_of_std_ok {ε : Type}
    {std : List Char → Bool → Bool → Except ε (List Char)}
    (valid : List Char → Bool) {s : List Char}
    (hstd : ∀ t ∈ tokenizeCombination s,
      ∃ n, std t (shiftPressed s) (altPressed s) = .ok n) :
    ∃ d, parseCombination std valid false s = .ok d ∧
      ∀ t ∈ tokenizeCombination s, ∀ n,
        std t (shiftPressed s) (altPressed s) = .ok n → (n, true) ∈ d := by
  obtain ⟨d, hfold, _, hall⟩ := foldlM_pcStep_ok (tokenizeCombination s) [] hstd
  exact ⟨d, hfold, hall⟩

theorem parseCombination_ok_props {ε : Type}
    {std : List Char → Bool → Bool → Except ε (List Char)}
    {valid : List Char → Bool} {ens : Bool} {s : List Char}
    {d : List (List Char × Bool)}
    (h : parseCombination std valid ens s = .ok d) :
    (d.map Prod.fst).Nodup ∧ ∀ e ∈ d, e.2 = true := by
  unfold parseCombination at h
  obtain ⟨hnd, htr⟩ := foldlM_pcStep_props (tokenizeCombination s) [] d h
  exact ⟨hnd (by simp), htr (by simp)⟩

theorem parseCombination_valid_irrel {ε : Type}
    (std : List Char → Bool → Bool → Except ε (List Char))
    (valid valid' : List Char → Bool) (s : List Char) :
    parseCombination std valid false s = parseCombination std valid' false s := by
  unfold parseCombination
  have h : pcStep std valid false (shiftPressed s) (altPressed s) =
      pcStep std valid' false (shiftPressed s) (altPressed s) := by
    funext d k
    unfold pcStep
    rcases std k (shiftPressed s) (altPressed s) with e | n <;> simp
  rw [h]

/-! ### Lemmas about `mapM` over `Except` -/

theorem mapM_except_error {ε α β : Type} (f : α → Except ε β) {l : List α}
    {c : α} (hc : c ∈ l) {e : ε} (hf : f c = .error e) :
    ∃ e', l.mapM f = .error e' := by
  induction l with
  | nil => cases hc
  | cons a l ih =>
    rw [List.mapM_cons]
    rcases List.mem_cons.mp hc with rfl | hmem
    · rw [hf]
      exact ⟨e, rfl⟩
    · rcases ha : f a with e' | b
      · exact ⟨e', rfl⟩
      · obtain ⟨e'', h⟩ := ih hmem
        rw [except_bind_ok, h]
        exact ⟨e'', rfl⟩

theorem mapM_except_ok {ε α β : Type} (f : α → Except ε β) {l : List α}
    (h : ∀ c ∈ l, ∃ y, f c = .ok y) : ∃ ys, l.mapM f = .ok ys := by
  induction l with
  | nil => exact ⟨[], rfl⟩
  | cons a l ih =>
    obtain ⟨y, hy⟩ := h a (List.mem_cons_self a l)
    obtain ⟨ys, hys⟩ := ih (fun c hc => h c (List.mem_cons_of_mem a hc))
    rw [List.mapM_cons, hy, except_bind_ok, hys]
    exact ⟨y :: ys, rfl⟩

/-! ### Unpacking `parseBody` -/

theorem parseBody_ok_elim {ε κ : Type}
    {std : List Char → Bool → Bool → Except ε (List Char)}
    {valid : List Char → Bool} {opts : ParseOptions κ} {s : List Char}
    {sq : BasicKeySequence} {cb : BasicKeyCombination κ}
    (h : parseBody std valid opts s = .ok (sq, cb)) :
    ∃ ids dterm,
      ((sequenceCombinations s).dropLast).mapM
        (fun keyCombination => do
          let keysInComboDict ← parseCombination std valid opts.ensureValidKeys
            keyCombination
          pure (normalizedCombinationId keysInComboDict)) = .ok ids ∧
      parseCombination std valid opts.ensureValidKeys
        ((sequenceCombinations s).getLastD []) = .ok dterm ∧
      sq = ⟨joinWithChar ' ' ids, (sequenceCombinations s).dropLast.length + 1⟩ ∧
      cb = ⟨normalizedCombinationId dterm, dterm, opts.keyEventType,
            (dterm.map Prod.fst).length⟩ := by
  unfold parseBody at h
  rcases hm : ((sequenceCombinations s).dropLast).mapM
      (fun keyCombination => do
        let keysInComboDict ← parseCombination std valid opts.ensureValidKeys
          keyCombination
        pure (normalizedCombinationId keysInComboDict)) with e | ids
  · rw [hm, except_bind_error] at h
    injection h
  · rw [hm, except_bind_ok] at h
    rcases hp : parseCombination std valid opts.ensureValidKeys
        ((sequenceCombinations s).getLastD []) with e | dterm
    · rw [hp, except_bind_error] at h
      injection h
    · rw [hp, except_bind_ok] at h
      injection h with h
      injection h with h1 h2
      exact ⟨ids, dterm, hm, rfl, h1.symm, h2.symm⟩

/-! ### The sorting used by the combination-id normalizer -/

theorem lexLe_trans {a b c : List Char} (h1 : lexLe a b = true)
    (h2 : lexLe b c = true) : lexLe a c = true := by
  induction a generalizing b c with
  | nil => rfl
  | cons x xs ih =>
    cases b with
    | nil => simp [lexLe] at h1
    | cons y ys =>
      cases c with
      | nil => simp [lexLe] at h2
      | cons z zs =>
        simp only [lexLe] at h1 h2 ⊢
        rcases lt_trichotomy x y with hxy | hxy | hxy
        · rcases lt_trichotomy y z with hyz | hyz | hyz
          · rw [if_pos (lt_trans hxy hyz)]
          · rw [← hyz, if_pos hxy]
          · rw [if_neg (asymm hyz), if_pos hyz] at h2
            exact absurd h2 (by simp)
        · rw [hxy] at h1 ⊢
          rw [if_neg (lt_irrefl y), if_neg (lt_irrefl y)] at h1
          rcases lt_trichotomy y z with hyz | hyz | hyz
          · rw [if_pos hyz]
          · rw [← hyz] at h2 ⊢
            rw [if_neg (lt_irrefl y), if_neg (lt_irrefl y)] at h2 ⊢
            exact ih h1 h2
          · rw [if_neg (asymm hyz), if_pos hyz] at h2
            exact absurd h2 (by simp)
        · rw [if_neg (asymm hxy), if_pos hxy] at h1
          exact absurd h1 (by simp)

theorem lexLe_total : ∀ a b : List Char, lexLe a b = true ∨ lexLe b a = true
  | [], _ => Or.inl rfl
  | _ :: _, [] => Or.inr rfl
  | x :: xs, y :: ys => by
    rcases lt_trichotomy x y with h | h | h
    · exact Or.inl (by simp [lexLe, h])
    · rw [h]
      rcases lexLe_total xs ys with h' | h'
      · exact Or.inl (by simp [lexLe, lt_irrefl, h'])
      · exact Or.inr (by simp [lexLe, lt_irrefl, h'])
    · exact Or.inr (by simp [lexLe, h])

theorem lexLe_antisymm : ∀ a b : List Char,
    lexLe a b = true → lexLe b a = true → a = b
  | [], [], _, _ => rfl
  | [], _ :: _, _, h2 => by simp [lexLe] at h2
  | _ :: _, [], h1, _ => by simp [lexLe] at h1
  | x :: xs, y :: ys, h1, h2 => by
    rcases lt_trichotomy x y with h | h | h
    · rw [lexLe, if_neg (asymm h), if_pos h] at h2
      exact absurd h2 (by simp)
    · rw [lexLe, ← h, if_neg (lt_irrefl x), if_neg (lt_irrefl x)] at h1
      rw [lexLe, h, if_neg (lt_irrefl y), if_neg (lt_irrefl y)] at h2
      rw [h, lexLe_antisymm xs ys h1 h2]
    · rw [lexLe, if_neg (asymm h), if_pos h] at h1
      exact absurd h1 (by simp)

theorem sortKeys_congr_perm {l1 l2 : List (List Char)} (h : l1.Perm l2) :
    sortKeys l1 = sortKeys l2 := by
  haveI ht : IsTrans (List Char) (fun a b => lexLe a b = true) :=
    ⟨fun _ _ _ h1 h2 => lexLe_trans h1 h2⟩
  haveI : IsTotal (List Char) (fun a b => lexLe a b = true) := ⟨lexLe_total⟩
  haveI : IsAntisymm (List Char) (fun a b => lexLe a b = true) :=
    ⟨lexLe_antisymm⟩
  unfold sortKeys
  exact List.eq_of_perm_of_sorted
    ((List.perm_insertionSort _ l1).trans
      (h.trans (List.perm_insertionSort _ l2).symm))
    (List.sorted_insertionSort _ l1) (List.sorted_insertionSort _ l2)

theorem normalizedCombinationId_congr {d1 d2 : List (List Char × Bool)}
    (h : (d1.map Prod.fst).Perm (d2.map Prod.fst)) :
    normalizedCombinationId d1 = normalizedCombinationId d2 := by
  unfold normalizedCombinationId
  rw [sortKeys_congr_perm h]

/-! ### The `ensureValidKeys = false` path ignores the validity predicate -/

theorem parse_valid_irrel {ε κ : Type}
    (std : List Char → Bool → Bool → Except ε (List Char))
    (valid valid' : List Char → Bool) (ev : κ) (s : List Char) :
    KeySequenceParser.parse std valid ⟨ev, false⟩ s =
      KeySequenceParser.parse std valid' ⟨ev, false⟩ s := by
  have hpc : ∀ c,
      parseCombination std valid (ParseOptions.mk ev false).ensureValidKeys c =
        parseCombination std valid' (ParseOptions.mk ev false).ensureValidKeys c :=
    fun c => parseCombination_valid_irrel std valid valid' c
  unfold KeySequenceParser.parse parseBody
  simp only [hpc]

/-! ### Membership helpers for the combination list -/

theorem getLastD_mem {α : Type} (l : List α) (h : l ≠ []) (d : α) :
    l.getLastD d ∈ l := by
  rcases List.eq_nil_or_concat l with rfl | ⟨init, x, rfl⟩
  · exact absurd rfl h
  · simp

theorem mem_of_mem_dropLast {α : Type} {l : List α} {x : α}
    (h : x ∈ l.dropLast) : x ∈ l := by
  rcases List.eq_nil_or_concat l with rfl | ⟨init, b, rfl⟩
  · cases h
  · rw [List.concat_eq_append, List.dropLast_concat] at h
    rw [List.concat_eq_append]
    exact List.mem_append_left _ h

/-! ### Strings the escape rewrite leaves unchanged -/

theorem escScan_eq_of_no_match : ∀ (f : Bool) (cs : List Char),
    hasEscMatch f cs = false → escScan f cs = cs := by
  intro f cs
  induction cs generalizing f with
  | nil => intro _; rfl
  | cons c rest ih =>
    intro h
    unfold hasEscMatch at h
    unfold escScan
    rcases hm : escMatch f (c :: rest) with _ | p
    · rw [hm] at h
      simp only [Option.isSome_none, Bool.false_or] at h
      rw [ih false h]
    · rw [hm] at h
      simp at h

theorem escMatch_cons (f : Bool) (c : Char) (r : List Char) :
    escMatch f (c :: r) =
      if f && c == '+' then some ([], r)
      else
        match r with
        | [] => none
        | c2 :: rest2 =>
          if c2 == '+' then
            if isJsWhitespace c then some ([c], rest2)
            else
              match rest2 with
              | [] => none
              | c3 :: rest3 =>
                if c3 == '+' then
                  if c == '+' then none else some ([c, '+'], rest3)
                else none
          else none :=
  rfl

theorem escMatch_none_of_safe {f : Bool} {c : Char} {r : List Char}
    (hc : c ≠ '+') (hw : isJsWhitespace c = false)
    (hr : ∀ r2, r ≠ '+' :: '+' :: r2) : escMatch f (c :: r) = none := by
  have hb : (c == '+') = false := by simp [hc]
  rcases r with _ | ⟨c1, r1⟩
  · show (if f && c == '+' then some (([] : List Char), ([] : List Char))
      else none) = none
    rw [hb, Bool.and_false, if_neg (by simp)]
  · rcases r1 with _ | ⟨c2, r2⟩
    · show (if f && c == '+' then some (([] : List Char), [c1])
        else
          if c1 == '+' then
            (if isJsWhitespace c then some ([c], ([] : List Char)) else none)
          else none) = none
      rw [hb, Bool.and_false, if_neg (show ¬((false : Bool) = true) by simp),
        hw, if_neg (show ¬((false : Bool) = true) by simp), ite_self]
    · show (if f && c == '+' then some (([] : List Char), c1 :: c2 :: r2)
        else
          if c1 == '+' then
            (if isJsWhitespace c then some ([c], c2 :: r2)
             else
               if c2 == '+' then
                 (if c == '+' then none else some ([c, '+'], r2))
               else none)
          else none) = none
      rw [hb, Bool.and_false, if_neg (show ¬((false : Bool) = true) by simp),
        hw, if_neg (show ¬((false : Bool) = true) by simp)]
      by_cases h1 : (c1 == '+') = true
      · rw [if_pos h1]
        by_cases h2 : (c2 == '+') = true
        · exfalso
          rw [beq_iff_eq] at h1 h2
          exact hr r2 (by rw [h1, h2])
        · rw [if_neg h2]
      · rw [if_neg h1]

theorem escMatch_false_plus (k : List Char) :
    escMatch false ('+' :: k) = none := by
  rcases k with _ | ⟨c1, k1⟩
  · rfl
  · rcases k1 with _ | ⟨c2, k2⟩
    · show (if false && ('+' == '+') then some (([] : List Char), [c1])
        else
          if c1 == '+' then
            (if isJsWhitespace '+' then some (['+'], ([] : List Char))
             else none)
          else none) = none
      rw [Bool.false_and, if_neg (show ¬((false : Bool) = true) by simp),
        show isJsWhitespace '+' = false from by decide,
        if_neg (show ¬((false : Bool) = true) by simp), ite_self]
    · show (if false && ('+' == '+') then some (([] : List Char), c1 :: c2 :: k2)
        else
          if c1 == '+' then
            (if isJsWhitespace '+' then some (['+'], c2 :: k2)
             else
               if c2 == '+' then
                 (if '+' == '+' then none else some (['+', '+'], k2))
               else none)
          else none) = none
      rw [Bool.false_and, if_neg (show ¬((false : Bool) = true) by simp),
        show isJsWhitespace '+' = false from by decide,
        if_neg (show ¬((false : Bool) = true) by simp),
        if_pos (show ('+' == '+') = true from rfl), ite_self, ite_self]

theorem hasEscMatch_token_append {t : List Char}
    (hgood : ∀ c ∈ t, c ≠ '+' ∧ isJsWhitespace c = false) :
    ∀ (k : List Char) (f : Bool), t ≠ [] → (∀ k2, k ≠ '+' :: '+' :: k2) →
      hasEscMatch f (t ++ k) = hasEscMatch false k := by
  induction t with
  | nil =>
    intro k f h _
    exact absurd rfl h
  | cons c t' ih =>
    intro k f _ hk
    obtain ⟨hc, hw⟩ := hgood c (List.mem_cons_self c t')
    rw [List.cons_append]
    simp only [hasEscMatch]
    cases t' with
    | nil =>
      rw [List.nil_append]
      rw [escMatch_none_of_safe hc hw hk]
      simp only [Option.isSome_none, Bool.false_or]
    | cons c2 t'' =>
      have hc2 : c2 ≠ '+' := (hgood c2 (by simp)).1
      have hnm : escMatch f (c :: (c2 :: t'' ++ k)) = none := by
        refine escMatch_none_of_safe hc hw ?_
        intro k2 hk2
        rw [List.cons_append] at hk2
        injection hk2 with h1 _
        exact hc2 h1
      rw [hnm]
      simp only [Option.isSome_none, Bool.false_or]
      exact ih (fun c3 h3 => hgood c3 (List.mem_cons_of_mem _ h3)) k false
        (by simp) hk

theorem hasEscMatch_plus_cons (k : List Char) :
    hasEscMatch false ('+' :: k) = hasEscMatch false k := by
  simp only [hasEscMatch]
  rw [escMatch_false_plus]
  simp

theorem joinPlus_cons_decomp (t2 : List Char) (ts : List (List Char)) :
    ∃ r, joinWithChar '+' (t2 :: ts) = t2 ++ r := by
  cases ts with
  | nil => exact ⟨[], by simp [joinWithChar]⟩
  | cons u us => exact ⟨'+' :: joinWithChar '+' (u :: us), rfl⟩

theorem hasEscMatch_joinPlus : ∀ (ts : List (List Char)), ts ≠ [] →
    (∀ t ∈ ts, t ≠ [] ∧ ∀ c ∈ t, c ≠ '+' ∧ isJsWhitespace c = false) →
    ∀ f, hasEscMatch f (joinWithChar '+' ts) = false
  | [], h, _ => absurd rfl h
  | [t], _, hgood => by
    intro f
    have h := hasEscMatch_token_append (hgood t (by simp)).2 [] f
      (hgood t (by simp)).1 (by intro k2 hk2; exact absurd hk2 (by simp))
    rw [List.append_nil] at h
    rw [show joinWithChar '+' [t] = t from rfl, h]
    rfl
  | t :: t2 :: ts, _, hgood => by
    intro f
    rw [show joinWithChar '+' (t :: t2 :: ts) =
      t ++ '+' :: joinWithChar '+' (t2 :: ts) from rfl]
    rw [hasEscMatch_token_append (hgood t (by simp)).2
      ('+' :: joinWithChar '+' (t2 :: ts)) f (hgood t (by simp)).1 ?_]
    · rw [hasEscMatch_plus_cons]
      exact hasEscMatch_joinPlus (t2 :: ts) (by simp)
        (fun u hu => hgood u (List.mem_cons_of_mem t hu)) false
    · intro k2 hk2
      injection hk2 with _ h2
      obtain ⟨r, hr⟩ := joinPlus_cons_decomp t2 ts
      rcases ht2 : t2 with _ | ⟨c0, t2'⟩
      · exact (hgood t2 (by simp)).1 ht2
      · rw [hr, ht2, List.cons_append] at h2
        injection h2 with h3 _
        exact ((hgood t2 (by simp)).2 c0 (by rw [ht2]; simp)).1 h3

/-! ### Splitting a join on a separator-free token list -/

theorem splitOnChar_no_sep : ∀ (t : List Char), (∀ c ∈ t, c ≠ '+') →
    splitOnChar '+' t = [t]
  | [], _ => rfl
  | c :: t, h => by
    unfold splitOnChar
    rw [if_neg (by simp [h c (by simp)])]
    rw [splitOnChar_no_sep t (fun c' h' => h c' (List.mem_cons_of_mem c h'))]

theorem splitOnChar_append_sep : ∀ (t : List Char), (∀ c ∈ t, c ≠ '+') →
    ∀ r, splitOnChar '+' (t ++ '+' :: r) = t :: splitOnChar '+' r
  | [], _, r => by
    rw [List.nil_append]
    simp only [splitOnChar]
    rw [if_pos (show ('+' == '+') = true from rfl)]
  | c :: t, h, r => by
    rw [List.cons_append]
    simp only [splitOnChar]
    rw [if_neg (by simp [h c (by simp)])]
    rw [splitOnChar_append_sep t (fun c' h' => h c' (List.mem_cons_of_mem c h')) r]

theorem splitOnChar_joinPlus : ∀ (ts : List (List Char)), ts ≠ [] →
    (∀ t ∈ ts, ∀ c ∈ t, c ≠ '+') →
    splitOnChar '+' (joinWithChar '+' ts) = ts
  | [], h, _ => absurd rfl h
  | [t], _, h => by
    rw [show joinWithChar '+' [t] = t from rfl]
    rw [splitOnChar_no_sep t (h t (by simp))]
  | t :: t2 :: ts, _, h => by
    rw [show joinWithChar '+' (t :: t2 :: ts) =
      t ++ '+' :: joinWithChar '+' (t2 :: ts) from rfl]
    rw [splitOnChar_append_sep t (h t (by simp))]
    rw [splitOnChar_joinPlus (t2 :: ts) (by simp)
      (fun u hu => h u (List.mem_cons_of_mem t hu))]

/-! ### The claims -/

/-- C1: any error raised while parsing the non-terminal or terminal
combinations (the body of the `try` block, `parseBody`) makes `parse` return
exactly the result with both fields null; a successful body populates both
fields; and on every call the two fields of the result are null together or
populated together, so no partial-success result is ever returned. -/
theorem claim_C1_uniform_failure {ε κ : Type}
    (std : List Char → Bool → Bool → Except ε (List Char))
    (valid : List Char → Bool) (opts : ParseOptions κ) (s : List Char) :
    (∀ e, parseBody std valid opts s = .error e →
      KeySequenceParser.parse std valid opts s = ⟨none, none⟩) ∧
    (∀ sq cb, parseBody std valid opts s = .ok (sq, cb) →
      KeySequenceParser.parse std valid opts s = ⟨some sq, some cb⟩) ∧
    ((KeySequenceParser.parse std valid opts s).sequence.isSome =
      (KeySequenceParser.parse std valid opts s).combination.isSome) := by
  refine ⟨fun e he => parse_of_body_error e he,
    fun sq cb h => parse_of_body_ok h, ?_⟩
  unfold KeySequenceParser.parse
  rcases parseBody std valid opts s with e | ⟨sq, cb⟩ <;> rfl

/-- C1 witness: a standardizer that throws the error `7` on the input `a`
makes `parse` return the double-null result. -/
theorem claim_C1_witness :
    KeySequenceParser.parse stdThrow validAll ⟨(0 : Nat), false⟩ (str "a") =
      ⟨none, none⟩ :=
  (claim_C1_uniform_failure stdThrow validAll ⟨0, false⟩ (str "a")).1
    (PError.thrown 7) rfl

/-- C2 (code bug): the claim states the shift (resp. alt) flag passed to the
standardizer is true iff the substring contains "shift" (resp. "alt")
case-insensitively; evaluating the code shows the flags are false on
"shift+a" and on "alt+b", because `String.prototype.indexOf` coerces the
regex argument to the literal text "/[sS]hift/" (resp. "/[aA]lt/"), which is
what is actually searched for (third conjunct exhibits that behavior). -/
theorem claim_C2_modifier_detection_bug :
    combinationModifiers (str "shift+a") = (false, false) ∧
    combinationModifiers (str "alt+b") = (false, false) ∧
    combinationModifiers (str "x/[sS]hift/y") = (true, false) :=
  ⟨by decide, by decide, by decide⟩

/-- C6: on every successful parse the combination's `size` equals the number
of distinct keys in its `keyDictionary`, every entry of the dictionary has
presence flag `true`, and dictionary insertion is idempotent, so duplicate
tokens standardizing to the same canonical name collapse to one entry. -/
theorem claim_C6_size_distinct_keys :
    (∀ (ε κ : Type) (std : List Char → Bool → Bool → Except ε (List Char))
      (valid : List Char → Bool) (opts : ParseOptions κ) (s : List Char)
      (sq : BasicKeySequence) (cb : BasicKeyCombination κ),
      KeySequenceParser.parse std valid opts s = ⟨some sq, some cb⟩ →
      cb.size = ((cb.keyDictionary.map Prod.fst).dedup).length ∧
      ∀ e ∈ cb.keyDictionary, e.2 = true) ∧
    (∀ (d : List (List Char × Bool)) (k : List Char),
      dictInsert (dictInsert d k) k = dictInsert d k) := by
  refine ⟨?_, dictInsert_idem⟩
  intro ε κ std valid opts s sq cb h
  obtain ⟨ids, dterm, _, hp, _, hcb⟩ := parseBody_ok_elim (body_ok_of_parse h)
  obtain ⟨hnd, htr⟩ := parseCombination_ok_props hp
  have hdict : cb.keyDictionary = dterm := by rw [hcb]
  have hsize : cb.size = (dterm.map Prod.fst).length := by rw [hcb]
  refine ⟨?_, ?_⟩
  · rw [hsize, hdict, hnd.dedup]
  · rw [hdict]
    exact htr

/-- C6 witness: parsing `a+b+a` (a duplicate token) gives a two-entry
dictionary with both presence flags true and size 2. -/
theorem claim_C6_witness :
    ((BasicKeyCombination.mk (str "a+b") [(str "a", true), (str "b", true)]
        (0 : Nat) 2).size =
      (((BasicKeyCombination.mk (str "a+b") [(str "a", true), (str "b", true)]
        (0 : Nat) 2).keyDictionary.map Prod.fst).dedup).length ∧
      ∀ e ∈ (BasicKeyCombination.mk (str "a+b")
        [(str "a", true), (str "b", true)] (0 : Nat) 2).keyDictionary,
        e.2 = true) ∧
    dictInsert (dictInsert [] (str "a")) (str "a") = dictInsert [] (str "a") :=
  ⟨claim_C6_size_distinct_keys.1 Unit Nat stdOk validAll ⟨0, false⟩
      (str "a+b+a") ⟨[], 1⟩
      ⟨str "a+b", [(str "a", true), (str "b", true)], 0, 2⟩ (by decide),
   claim_C6_size_distinct_keys.2 [] (str "a")⟩

/-- C7: on every successful parse, the sequence's `size` equals the number of
space-separated combination substrings of the whitespace-normalized input,
and when that number is 1 (single combination, no spaces) the sequence's
prefix is the empty string. -/
theorem claim_C7_sequence_size {ε κ : Type}
    (std : List Char → Bool → Bool → Except ε (List Char))
    (valid : List Char → Bool) (opts : ParseOptions κ) (s : List Char)
    (sq : BasicKeySequence) (cb : BasicKeyCombination κ)
    (h : KeySequenceParser.parse std valid opts s = ⟨some sq, some cb⟩) :
    sq.size = (sequenceCombinations s).length ∧
    ((sequenceCombinations s).length = 1 → sq.pfx = []) := by
  obtain ⟨ids, dterm, hm, hp, hsq, _⟩ := parseBody_ok_elim (body_ok_of_parse h)
  have hne := sequenceCombinations_ne_nil s
  have hsize : sq.size = (sequenceCombinations s).dropLast.length + 1 := by
    rw [hsq]
  have hpfx : sq.pfx = joinWithChar ' ' ids := by rw [hsq]
  constructor
  · rw [hsize, List.length_dropLast]
    exact Nat.sub_add_cancel (List.length_pos.mpr hne)
  · intro h1
    obtain ⟨x, hx⟩ := List.length_eq_one.mp h1
    rw [hx, List.dropLast_single] at hm
    have hids : ids = [] := by
      have h0 : (Except.ok [] :
          Except (PError ε) (List (List Char))) = .ok ids := hm
      injection h0 with h0
      exact h0.symm
    rw [hpfx, hids]
    rfl

/-- C7 witness: `a+b` normalizes to a single combination, so the sequence has
size 1 and empty prefix. -/
theorem claim_C7_witness :
    (BasicKeySequence.mk [] 1).size = (sequenceCombinations (str "a+b")).length ∧
    ((sequenceCombinations (str "a+b")).length = 1 →
      (BasicKeySequence.mk [] 1).pfx = []) :=
  claim_C7_sequence_size stdOk validAll ⟨(0 : Nat), false⟩ (str "a+b") ⟨[], 1⟩
    ⟨str "a+b", [(str "a", true), (str "b", true)], 0, 2⟩ (by decide)

/-- C9: on every successful parse, the `keyEventType` of the returned
terminal combination is exactly the caller-supplied `options.keyEventType`;
the event-type tag has an arbitrary opaque type `κ`, so the core cannot
inspect or transform it. -/
theorem claim_C9_event_type_verbatim {ε κ : Type}
    (std : List Char → Bool → Bool → Except ε (List Char))
    (valid : List Char → Bool) (opts : ParseOptions κ) (s : List Char)
    (sq : BasicKeySequence) (cb : BasicKeyCombination κ)
    (h : KeySequenceParser.parse std valid opts s = ⟨some sq, some cb⟩) :
    cb.keyEventType = opts.keyEventType := by
  obtain ⟨ids, dterm, _, _, _, hcb⟩ := parseBody_ok_elim (body_ok_of_parse h)
  rw [hcb]

/-- C9 witness: parsing `a` with event tag 5 returns a combination carrying
tag 5. -/
theorem claim_C9_witness :
    (BasicKeyCombination.mk (str "a") [(str "a", true)] (5 : Nat) 1).keyEventType
      = (ParseOptions.mk (5 : Nat) false).keyEventType :=
  claim_C9_event_type_verbatim stdOk validAll ⟨5, false⟩ (str "a")
    ⟨[], 1⟩ ⟨str "a", [(str "a", true)], 5, 1⟩ (by decide)

/-- C10: because the shift/alt tests compare the string coercion of a regex
literal with `String.indexOf`, every combination substring that does not
contain the literal text "/[sS]hift/" (resp. "/[aA]lt/") gets the modifier
context (false, false); consequently `parseCombination` behaves as if the
standardizer were always called with both flags false. -/
theorem claim_C10_modifiers_false (s : List Char)
    (h1 : containsSub s shiftCoercedPattern = false)
    (h2 : containsSub s altCoercedPattern = false) :
    combinationModifiers s = (false, false) ∧
    ∀ (ε : Type) (std : List Char → Bool → Bool → Except ε (List Char))
      (valid : List Char → Bool) (ens : Bool),
      parseCombination std valid ens s =
        parseCombination (fun k _ _ => std k false false) valid ens s := by
  have hs : shiftPressed s = false := h1
  have ha : altPressed s = false := h2
  refine ⟨by rw [combinationModifiers, hs, ha], ?_⟩
  intro ε std valid ens
  unfold parseCombination
  rw [hs, ha]
  rfl

/-- C10 witness: the ordinary input `shift+a` yields the modifier context
(false, false). -/
theorem claim_C10_witness :
    combinationModifiers (str "shift+a") = (false, false) ∧
    parseCombination stdOk validAll false (str "shift+a") =
      parseCombination (fun k _ _ => stdOk k false false) validAll false
        (str "shift+a") := by
  obtain ⟨h1, h2⟩ := claim_C10_modifiers_false (str "shift+a")
    (by decide) (by decide)
  exact ⟨h1, h2 Unit stdOk validAll false⟩

/-- C3: parse fails because of an unrecognized key exactly when validation is
requested.  (i) With `ensureValidKeys = true`, a token anywhere in the
sequence whose standardized name fails the validity predicate makes the whole
parse return the double-null result.  (ii) With `ensureValidKeys = false`
(and the standardizer returning a name on every token of the input), parse
does not fail, and the terminal combination's dictionary contains each
standardized name.  (iii) With `ensureValidKeys = false` the validity
predicate is never consulted: the result does not depend on it. -/
theorem claim_C3_validation_gating {ε κ : Type}
    (std : List Char → Bool → Bool → Except ε (List Char))
    (valid : List Char → Bool) (ev : κ) (s : List Char) :
    (∀ c ∈ sequenceCombinations s, ∀ t ∈ tokenizeCombination c, ∀ n,
      std t (shiftPressed c) (altPressed c) = .ok n → valid n = false →
      KeySequenceParser.parse std valid ⟨ev, true⟩ s = ⟨none, none⟩) ∧
    ((∀ c ∈ sequenceCombinations s, ∀ t ∈ tokenizeCombination c,
        ∃ n, std t (shiftPressed c) (altPressed c) = .ok n) →
      ∃ sq cb, KeySequenceParser.parse std valid ⟨ev, false⟩ s =
          ⟨some sq, some cb⟩ ∧
        ∀ t ∈ tokenizeCombination ((sequenceCombinations s).getLastD []),
          ∀ n, std t (shiftPressed ((sequenceCombinations s).getLastD []))
              (altPressed ((sequenceCombinations s).getLastD [])) = .ok n →
            (n, true) ∈ cb.keyDictionary) ∧
    (∀ valid' : List Char → Bool,
      KeySequenceParser.parse std valid ⟨ev, false⟩ s =
        KeySequenceParser.parse std valid' ⟨ev, false⟩ s) := by
  refine ⟨?_, ?_, fun valid' => parse_valid_irrel std valid valid' ev s⟩
  · intro c hc t ht n hstd hv
    obtain ⟨e0, hpc⟩ := parseCombination_error_of_invalid ht hstd hv
    have hne := sequenceCombinations_ne_nil s
    have hdec := dropLast_append_getLastD (sequenceCombinations s) hne []
    have hmem : c ∈ (sequenceCombinations s).dropLast ∨
        c = (sequenceCombinations s).getLastD [] := by
      rw [← hdec] at hc
      rcases List.mem_append.mp hc with h | h
      · exact Or.inl h
      · exact Or.inr (List.mem_singleton.mp h)
    rcases hmem with hmem | rfl
    · have hf : (fun keyCombination => do
          let keysInComboDict ← parseCombination std valid true keyCombination
          pure (normalizedCombinationId keysInComboDict)) c =
          (.error e0 : Except (PError ε) (List Char)) := by
        show (parseCombination std valid true c >>= fun keysInComboDict =>
          pure (normalizedCombinationId keysInComboDict)) = .error e0
        rw [hpc]
        rfl
      obtain ⟨e1, hmapm⟩ := mapM_except_error
        (fun keyCombination => do
          let keysInComboDict ← parseCombination std valid true keyCombination
          pure (normalizedCombinationId keysInComboDict)) hmem hf
      refine parse_of_body_error e1 ?_
      unfold parseBody
      rw [show (ParseOptions.mk ev true).ensureValidKeys = true from rfl]
      rw [hmapm]
      rfl
    · rcases hm : ((sequenceCombinations s).dropLast).mapM
          (fun keyCombination => do
            let keysInComboDict ← parseCombination std valid true
              keyCombination
            pure (normalizedCombinationId keysInComboDict)) with e1 | ids
      · refine parse_of_body_error e1 ?_
        unfold parseBody
        rw [show (ParseOptions.mk ev true).ensureValidKeys = true from rfl]
        rw [hm]
        rfl
      · refine parse_of_body_error e0 ?_
        unfold parseBody
        rw [show (ParseOptions.mk ev true).ensureValidKeys = true from rfl]
        rw [hm, hpc]
        rfl
  · intro hstd
    have hne := sequenceCombinations_ne_nil s
    have hterm_mem : (sequenceCombinations s).getLastD [] ∈
        sequenceCombinations s := getLastD_mem _ hne []
    have hnt : ∀ c ∈ (sequenceCombinations s).dropLast,
        ∃ y, (fun keyCombination => do
          let keysInComboDict ← parseCombination std valid false
            keyCombination
          pure (normalizedCombinationId keysInComboDict)) c =
          (.ok y : Except (PError ε) (List Char)) := by
      intro c hc
      obtain ⟨d, hd, _⟩ := parseCombination_ok_of_std_ok valid
        (hstd c (mem_of_mem_dropLast hc))
      refine ⟨normalizedCombinationId d, ?_⟩
      show (parseCombination std valid false c >>= fun keysInComboDict =>
        pure (normalizedCombinationId keysInComboDict)) = _
      rw [hd]
      rfl
    obtain ⟨ids, hmapm⟩ := mapM_except_ok
      (fun keyCombination => do
        let keysInComboDict ← parseCombination std valid false keyCombination
        pure (normalizedCombinationId keysInComboDict)) hnt
    obtain ⟨dterm, hdterm, hmem⟩ := parseCombination_ok_of_std_ok valid
      (hstd _ hterm_mem)
    refine ⟨⟨joinWithChar ' ' ids,
        (sequenceCombinations s).dropLast.length + 1⟩,
      ⟨normalizedCombinationId dterm, dterm, ev, (dterm.map Prod.fst).length⟩,
      ?_, ?_⟩
    · refine parse_of_body_ok ?_
      unfold parseBody
      rw [show (ParseOptions.mk ev false).ensureValidKeys = false from rfl]
      rw [hmapm, hdterm]
      rfl
    · intro t ht n hn
      exact hmem t ht n hn

/-- C3 witness: with the identity standardizer and a validity predicate
rejecting `foobar`, parsing `foobar+a` fails under validation, succeeds
without validation with `foobar` in the dictionary, and without validation
the result is independent of the validity predicate. -/
theorem claim_C3_witness :
    KeySequenceParser.parse stdOk validNoFoobar ⟨(0 : Nat), true⟩
        (str "foobar+a") = ⟨none, none⟩ ∧
    (∃ sq cb, KeySequenceParser.parse stdOk validNoFoobar ⟨(0 : Nat), false⟩
        (str "foobar+a") = ⟨some sq, some cb⟩ ∧
      ∀ t ∈ tokenizeCombination
          ((sequenceCombinations (str "foobar+a")).getLastD []),
        ∀ n, stdOk t
            (shiftPressed ((sequenceCombinations (str "foobar+a")).getLastD []))
            (altPressed ((sequenceCombinations (str "foobar+a")).getLastD []))
            = .ok n →
          (n, true) ∈ cb.keyDictionary) ∧
    KeySequenceParser.parse stdOk validNoFoobar ⟨(0 : Nat), false⟩
        (str "foobar+a") =
      KeySequenceParser.parse stdOk (fun _ => false) ⟨(0 : Nat), false⟩
        (str "foobar+a") := by
  obtain ⟨h1, h2, h3⟩ := claim_C3_validation_gating stdOk validNoFoobar
    (0 : Nat) (str "foobar+a")
  refine ⟨h1 (str "foobar+a") (by decide) (str "foobar") (by decide)
      (str "foobar") rfl (by decide), ?_, h3 (fun _ => false)⟩
  exact h2 (fun c _ t _ => ⟨t, rfl⟩)

/-- C4: in the escape rule only the first qualifying occurrence of '+' is
rewritten to the literal token `plus` before splitting (in `++a++b` the
second `++` survives, leaving an empty token), and the combination string
`+` on its own parses to a successful single-key combination whose sole key
is the standardized plus key, not an empty key. -/
theorem claim_C4_plus_escape {ε κ : Type}
    (std : List Char → Bool → Bool → Except ε (List Char))
    (valid : List Char → Bool) (ev : κ) (p : List Char)
    (hp : std (str "plus") false false = .ok p) :
    tokenizeCombination (str "+") = [str "plus"] ∧
    tokenizeCombination (str "++a++b") = [str "plus", str "a", [], str "b"] ∧
    KeySequenceParser.parse std valid ⟨ev, false⟩ (str "+") =
      ⟨some ⟨[], 1⟩, some ⟨p, [(p, true)], ev, 1⟩⟩ := by
  refine ⟨by decide, by decide, ?_⟩
  have hpc : parseCombination std valid false (str "+") = .ok [(p, true)] := by
    unfold parseCombination
    rw [show tokenizeCombination (str "+") = [str "plus"] from rfl]
    rw [show shiftPressed (str "+") = false from rfl,
      show altPressed (str "+") = false from rfl]
    rw [List.foldlM_cons, pcStep_ok_of_std_ok hp]
    rfl
  refine parse_of_body_ok ?_
  unfold parseBody
  rw [show sequenceCombinations (str "+") = [str "+"] from rfl]
  rw [List.dropLast_single]
  rw [show ([str "+"] : List (List Char)).getLastD [] = str "+" from rfl]
  rw [List.mapM_nil]
  rw [show (ParseOptions.mk ev false).ensureValidKeys = false from rfl]
  rw [hpc]
  rfl

/-- C4 witness: with the identity standardizer, `+` parses to the single key
`plus`, and the concrete tokenizations are as stated. -/
theorem claim_C4_witness :
    tokenizeCombination (str "+") = [str "plus"] ∧
    tokenizeCombination (str "++a++b") = [str "plus", str "a", [], str "b"] ∧
    KeySequenceParser.parse stdOk validAll ⟨(0 : Nat), false⟩ (str "+") =
      ⟨some ⟨[], 1⟩, some ⟨str "plus", [(str "plus", true)], 0, 1⟩⟩ :=
  claim_C4_plus_escape stdOk validAll 0 (str "plus") rfl

/-- C5: the combination id is order-independent: two successful parses whose
terminal key dictionaries carry the same set of canonical key names produce
identical combination ids — the id is a function only of the key set of the
keyDictionary, not of authoring order. -/
theorem claim_C5_id_order_independent {ε κ : Type}
    (std : List Char → Bool → Bool → Except ε (List Char))
    (valid : List Char → Bool) (opts : ParseOptions κ) (s1 s2 : List Char)
    (sq1 sq2 : BasicKeySequence) (cb1 cb2 : BasicKeyCombination κ)
    (h1 : KeySequenceParser.parse std valid opts s1 = ⟨some sq1, some cb1⟩)
    (h2 : KeySequenceParser.parse std valid opts s2 = ⟨some sq2, some cb2⟩)
    (hset : ∀ k, k ∈ cb1.keyDictionary.map Prod.fst ↔
      k ∈ cb2.keyDictionary.map Prod.fst) :
    cb1.id = cb2.id := by
  obtain ⟨ids1, d1, _, hp1, _, hcb1⟩ := parseBody_ok_elim (body_ok_of_parse h1)
  obtain ⟨ids2, d2, _, hp2, _, hcb2⟩ := parseBody_ok_elim (body_ok_of_parse h2)
  have hid1 : cb1.id = normalizedCombinationId d1 := by rw [hcb1]
  have hid2 : cb2.id = normalizedCombinationId d2 := by rw [hcb2]
  have hd1 : cb1.keyDictionary = d1 := by rw [hcb1]
  have hd2 : cb2.keyDictionary = d2 := by rw [hcb2]
  have hnd1 := (parseCombination_ok_props hp1).1
  have hnd2 := (parseCombination_ok_props hp2).1
  rw [hd1, hd2] at hset
  have hperm : (d1.map Prod.fst).Perm (d2.map Prod.fst) :=
    (List.perm_ext_iff_of_nodup hnd1 hnd2).mpr hset
  rw [hid1, hid2]
  exact normalizedCombinationId_congr hperm

/-- C5 witness: `a+b` and `b+a` produce dictionaries in different insertion
orders but the same id. -/
theorem claim_C5_witness :
    (BasicKeyCombination.mk (str "a+b") [(str "a", true), (str "b", true)]
      (0 : Nat) 2).id =
    (BasicKeyCombination.mk (str "a+b") [(str "b", true), (str "a", true)]
      (0 : Nat) 2).id :=
  claim_C5_id_order_independent stdOk validAll ⟨0, false⟩ (str "a+b")
    (str "b+a") ⟨[], 1⟩ ⟨[], 1⟩
    ⟨str "a+b", [(str "a", true), (str "b", true)], 0, 2⟩
    ⟨str "a+b", [(str "b", true), (str "a", true)], 0, 2⟩
    (by decide) (by decide) (by intro k; simp [str]; tauto)

/-- C8 counterexample: `a+` is a non-empty combination substring without any
whitespace whose tokenization is `[a, ""]`, which contains an empty token —
refuting the claim that every token of the tokenizer's output is non-empty. -/
theorem claim_C8_counterexample :
    str "a+" ≠ [] ∧ (∀ c ∈ str "a+", isJsWhitespace c = false) ∧
    tokenizeCombination (str "a+") = [str "a", []] ∧
    ¬ (∀ t ∈ tokenizeCombination (str "a+"), t ≠ []) := by
  decide

/-- C8 (amended): the tokenizer's output is always an ordered, non-empty
list of raw token strings, but an individual token can be empty (e.g. for a
trailing '+'); when the combination substring is the '+'-join of non-empty,
'+'-free, whitespace-free key names, the output is exactly that ordered
sequence of names — in particular every token is then non-empty. -/
theorem claim_C8_tokenizer_output :
    (∀ s : List Char, tokenizeCombination s ≠ []) ∧
    (∀ ts : List (List Char), ts ≠ [] →
      (∀ t ∈ ts, t ≠ [] ∧ ∀ c ∈ t, c ≠ '+' ∧ isJsWhitespace c = false) →
      tokenizeCombination (joinWithChar '+' ts) = ts) := by
  constructor
  · intro s
    exact splitOnChar_ne_nil '+' (escScan true s)
  · intro ts hne hgood
    unfold tokenizeCombination
    rw [escScan_eq_of_no_match true _ (hasEscMatch_joinPlus ts hne hgood true)]
    exact splitOnChar_joinPlus ts hne (fun t ht c hc => ((hgood t ht).2 c hc).1)

/-- C8 witness: joining the key names `a` and `b` with '+' and tokenizing
recovers exactly those two non-empty tokens. -/
theorem claim_C8_witness :
    tokenizeCombination (joinWithChar '+' [str "a", str "b"]) =
      [str "a", str "b"] :=
  claim_C8_tokenizer_output.2 [str "a", str "b"] (by decide) (by decide)

end ReactHotkeys
